import Mathlib

/-!
Verification of the continuous-segment indicator pipeline of the BTCResearch
repository against its natural-language specification.

The embedding translates the Python sources:
  * `validate_json.py` (`validate_klines`): the Gap Validator,
  * `dataset_generator/split_and_calc_index.py` (`process_crypto_data`):
    the Segmenter, missing-value fill, Indicator Engine trimming and the
    per-segment export artifact,
  * `generate_training_dataset.py` (`calculate_indicators`): True Range and
    ATR(50) as computed in-repo.

Timestamps are modelled as integers counting seconds (Python `datetime`
values at second granularity); the sampling interval `timedelta(hours=1)`
is the constant `hour = 3600`.  Prices are rationals; pandas `NaN` cells
are `Option` `none` values.
-/

/-- The sampling interval: one hour, in seconds (`timedelta(hours=1)`). -/
def hour : Int := 3600

/-! ## Gap Validator (`validate_json.py`, `validate_klines`) -/

/-- The scan loop of `validate_klines` over the already-parsed timestamp list.
`prev` is `times[i-1]`; the result is the pair `(duplicates, missing)` built in
the loop:
  * `actual == times[i-1]` appends `actual` to `duplicates`;
  * otherwise `actual != expected` (with `expected = times[i-1] + 1h`) appends
    `expected + (j-1) hours` for `j in range(1, missing_hours + 1)` where
    `missing_hours = (actual - expected) // timedelta(hours=1)` (floor
    division, as Python's `//` on `timedelta`);
  * otherwise nothing is recorded. -/
def gapScan (prev : Int) : List Int → List Int × List Int
  | [] => ([], [])
  | t :: ts =>
    if t = prev then
      (t :: (gapScan t ts).1, (gapScan t ts).2)
    else if t ≠ prev + hour then
      ((gapScan t ts).1,
       (List.range ((t - (prev + hour)).fdiv hour).toNat).map
         (fun (j : Nat) => prev + hour + hour * (j : Int)) ++ (gapScan t ts).2)
    else
      gapScan t ts

/-- Timestamp parsing outcome for one record: `datetime.strptime` either
yields a time or raises `ValueError`; a raw record is modelled by its parse
result (`none` = malformed timestamp string). -/
abbrev RawTime := Option Int

/-- The list comprehension `[datetime.strptime(k['open_time'], ...) for k in
klines]`: the first unparseable timestamp aborts the whole conversion. -/
def parseAll : List RawTime → Option (List Int)
  | [] => some []
  | none :: _ => none
  | some t :: rest => (parseAll rest).map (fun l => t :: l)

/-- The two early-exit failure outcomes of `validate_klines`: the empty-input
return (`"K线数据为空。"`) and the timestamp-format return
(`"时间格式错误: ..."`), the spec's `EmptySequenceError` and `FormatError`. -/
inductive VError where
  | emptySequence
  | formatError
deriving DecidableEq

/-- Result of `validate_klines`: either an early failure, or the normal
gap report (validity flag, duplicate list, missing list). -/
inductive VResult where
  | error (e : VError)
  | report (valid : Bool) (duplicates : List Int) (missing : List Int)
deriving DecidableEq

/-- `validate_klines` (`validate_json.py`): empty input fails first, then all
timestamps are parsed (first failure aborts), then the scan runs and the
function reports validity: it returns the success message exactly when both
the duplicate list and the missing list are empty. -/
def validate_klines (ks : List RawTime) : VResult :=
  match ks with
  | [] => .error .emptySequence
  | _ :: _ =>
    match parseAll ks with
    | none => .error .formatError
    | some [] => .report true [] []
    | some (t :: ts) =>
      let r := gapScan t ts
      .report (r.1.isEmpty && r.2.isEmpty) r.1 r.2

/-! Scenario constructions used by the spec's testable properties. -/

/-- A perfect hourly sequence of `n` bars' open times starting at `t0`. -/
def hourly (t0 : Int) (n : Nat) : List Int :=
  (List.range n).map (fun (i : Nat) => t0 + hour * (i : Int))

/-- The perfect hourly sequence with the bar at index `k` duplicated once. -/
def dupInserted (t0 : Int) (n k : Nat) : List Int :=
  (hourly t0 n).take (k + 1) ++ (hourly t0 n).drop k

/-- The perfect hourly sequence with the bar at index `k` removed. -/
def oneRemoved (t0 : Int) (n k : Nat) : List Int :=
  (hourly t0 n).take k ++ (hourly t0 n).drop (k + 1)

/-! ### Basic facts about `hourly` and `gapScan` -/

theorem gapScan_cons (prev t : Int) (ts : List Int) :
    gapScan prev (t :: ts) =
      if t = prev then (t :: (gapScan t ts).1, (gapScan t ts).2)
      else if t ≠ prev + hour then
        ((gapScan t ts).1,
         (List.range ((t - (prev + hour)).fdiv hour).toNat).map
           (fun (j : Nat) => prev + hour + hour * (j : Int)) ++ (gapScan t ts).2)
      else gapScan t ts := rfl

theorem hourly_succ (t : Int) (n : Nat) :
    hourly t (n + 1) = t :: hourly (t + hour) n := by
  unfold hourly
  rw [List.range_succ_eq_map, List.map_cons, List.map_map]
  refine congrArg₂ List.cons (by norm_num) ?_
  apply List.map_congr_left
  intro i _
  simp only [Function.comp_apply, Nat.succ_eq_add_one]
  push_cast
  ring

theorem hourly_length (t : Int) (n : Nat) : (hourly t n).length = n := by
  simp [hourly]

theorem hourly_getLastD (t : Int) (n : Nat) :
    (hourly (t + hour) n).getLastD t = t + hour * n := by
  induction n generalizing t with
  | zero => simp [hourly]
  | succ m ih =>
    rw [hourly_succ, List.getLastD_cons]
    rw [ih (t + hour)]
    push_cast
    ring

theorem gapScan_hourly (p : Int) (n : Nat) :
    gapScan p (hourly (p + hour) n) = ([], []) := by
  induction n generalizing p with
  | zero => simp [hourly, gapScan]
  | succ m ih =>
    rw [hourly_succ, gapScan_cons]
    rw [if_neg (by simp [hour]), if_neg (by simp)]
    exact ih (p + hour)

theorem gapScan_append (prev : Int) (xs ys : List Int) :
    gapScan prev (xs ++ ys) =
      ((gapScan prev xs).1 ++ (gapScan (xs.getLastD prev) ys).1,
       (gapScan prev xs).2 ++ (gapScan (xs.getLastD prev) ys).2) := by
  induction xs generalizing prev with
  | nil => simp [gapScan]
  | cons x xs ih =>
    simp only [List.cons_append, List.getLastD_cons]
    rw [gapScan_cons, gapScan_cons]
    by_cases h1 : x = prev
    · rw [if_pos h1, if_pos h1]
      simp [ih x]
    · by_cases h2 : x ≠ prev + hour
      · rw [if_neg h1, if_neg h1, if_pos h2, if_pos h2]
        simp [ih x]
      · rw [if_neg h1, if_neg h1, if_neg h2, if_neg h2]
        exact ih x

theorem hourly_take (t : Int) (n m : Nat) :
    (hourly t n).take m = hourly t (min m n) := by
  induction m generalizing t n with
  | zero => simp [hourly]
  | succ k ih =>
    cases n with
    | zero => simp [hourly]
    | succ n' =>
      rw [hourly_succ, List.take_succ_cons, ih (t + hour) n',
        Nat.succ_min_succ, hourly_succ]

theorem hourly_drop (t : Int) (n m : Nat) :
    (hourly t n).drop m = hourly (t + hour * m) (n - m) := by
  induction m generalizing t n with
  | zero => simp
  | succ k ih =>
    cases n with
    | zero => simp [hourly]
    | succ n' =>
      rw [hourly_succ, List.drop_succ_cons, ih (t + hour) n']
      congr 1
      · push_cast
        ring
      · omega

theorem parseAll_map_some (ts : List Int) : parseAll (ts.map some) = some ts := by
  induction ts with
  | nil => rfl
  | cons t ts ih => simp [parseAll, ih]

theorem validate_klines_cons (t : Int) (ts : List Int) :
    validate_klines ((t :: ts).map some) =
      .report ((gapScan t ts).1.isEmpty && (gapScan t ts).2.isEmpty)
        (gapScan t ts).1 (gapScan t ts).2 := by
  have h : parseAll (some t :: ts.map some) = some (t :: ts) := by
    simpa using parseAll_map_some (t :: ts)
  simp [validate_klines, h]

theorem fdiv_hour_neg_small {x : Int} (h1 : -hour < x) (h2 : x < 0) :
    x.fdiv hour = -1 := by
  rw [Int.fdiv_eq_ediv _ (by simp [hour])]
  simp only [hour] at h1 ⊢
  omega

theorem fdiv_hour_self : hour.fdiv hour = 1 := by decide

/-- A duplicated timestamp followed by a clean hourly run records exactly the
one duplicate. -/
theorem gapScan_dup (p : Int) (m : Nat) :
    gapScan p (p :: hourly (p + hour) m) = ([p], []) := by
  rw [gapScan_cons, if_pos rfl]
  simp [gapScan_hourly]

/-- A single one-hour hole followed by a clean hourly run records exactly the
one missing timestamp. -/
theorem gapScan_onegap (p : Int) (m : Nat) :
    gapScan p ((p + hour + hour) :: hourly (p + hour + hour + hour) m) =
      ([], [p + hour]) := by
  rw [gapScan_cons]
  rw [if_neg (by simp only [hour]; omega), if_pos (by simp only [hour]; omega)]
  have harg : p + hour + hour - (p + hour) = hour := by ring
  rw [harg, fdiv_hour_self, gapScan_hourly]
  rw [show List.range (Int.toNat 1) = [0] from rfl]
  simp

/-- C8 core: adjacent deltas strictly inside (0, hour) record nothing. -/
theorem gapScan_subhour (prev : Int) (ts : List Int)
    (h : List.Chain' (fun a b => a < b ∧ b < a + hour) (prev :: ts)) :
    gapScan prev ts = ([], []) := by
  induction ts generalizing prev with
  | nil => simp [gapScan]
  | cons t ts ih =>
    rw [List.chain'_cons] at h
    obtain ⟨⟨hlt, hub⟩, hrest⟩ := h
    rw [gapScan_cons]
    rw [if_neg (by omega), if_pos (by omega)]
    have hm : ((t - (prev + hour)).fdiv hour).toNat = 0 := by
      rw [fdiv_hour_neg_small (by omega) (by omega)]
      rfl
    rw [hm, ih t hrest]
    simp

theorem parseAll_eq_none (ks : List RawTime) : parseAll ks = none ↔ none ∈ ks := by
  induction ks with
  | nil => simp [parseAll]
  | cons a ks ih =>
    cases a with
    | none => simp [parseAll]
    | some t => simp [parseAll, ih]

/-- C4: the Gap Validator's scan classifies each adjacent pair (step of one
interval: contiguous; zero delta: duplicate; otherwise: synthesized missing
timestamps); a perfect hourly sequence of `n ≥ 1` bars is valid with empty
lists, duplicating the bar at index `k` yields exactly one duplicate entry
(that bar's open time), and removing the interior bar at index `k` yields
exactly one missing timestamp equal to the removed bar's open time. -/
theorem gap_validator_scenarios (t0 : Int) (n k : Nat) :
    (1 ≤ n → validate_klines ((hourly t0 n).map some) = .report true [] [])
    ∧ (k < n → validate_klines ((dupInserted t0 n k).map some) =
        .report false [t0 + hour * (k : Int)] [])
    ∧ (1 ≤ k → k + 2 ≤ n → validate_klines ((oneRemoved t0 n k).map some) =
        .report false [] [t0 + hour * (k : Int)]) := by
  refine ⟨?_, ?_, ?_⟩
  · intro hn
    obtain ⟨m, rfl⟩ : ∃ m, n = m + 1 := ⟨n - 1, by omega⟩
    rw [hourly_succ, validate_klines_cons, gapScan_hourly]
    rfl
  · intro hk
    obtain ⟨d, hd⟩ : ∃ d, n - k = d + 1 := ⟨n - k - 1, by omega⟩
    have hmin : min (k + 1) n = k + 1 := by omega
    rw [dupInserted, hourly_take, hourly_drop, hmin, hd, hourly_succ,
      List.cons_append, validate_klines_cons, gapScan_append, gapScan_hourly,
      hourly_getLastD, hourly_succ, gapScan_dup]
    simp
  · intro hk1 hk2
    obtain ⟨k', rfl⟩ : ∃ k', k = k' + 1 := ⟨k - 1, by omega⟩
    obtain ⟨d, hd⟩ : ∃ d, n - (k' + 1 + 1) = d + 1 := ⟨n - k' - 3, by omega⟩
    have hmin : min (k' + 1) n = k' + 1 := by omega
    have harg : t0 + hour * ((k' + 1 + 1 : Nat) : Int) =
        t0 + hour * (k' : Int) + hour + hour := by push_cast; ring
    have hres : t0 + hour * ((k' + 1 : Nat) : Int) =
        t0 + hour * (k' : Int) + hour := by push_cast; ring
    rw [oneRemoved, hourly_take, hourly_drop, hmin, hd, harg, hres, hourly_succ,
      List.cons_append, validate_klines_cons, gapScan_append, gapScan_hourly,
      hourly_getLastD, hourly_succ, gapScan_onegap]
    simp

theorem gap_validator_scenarios_witness :
    (1 ≤ 3 ∧ validate_klines ((hourly 0 3).map some) = .report true [] [])
    ∧ (1 < 3 ∧ validate_klines ((dupInserted 0 3 1).map some) =
        .report false [0 + hour * ((1 : Nat) : Int)] [])
    ∧ (1 ≤ 1 ∧ 1 + 2 ≤ 3 ∧ validate_klines ((oneRemoved 0 3 1).map some) =
        .report false [] [0 + hour * ((1 : Nat) : Int)]) :=
  ⟨⟨by decide, (gap_validator_scenarios 0 3 1).1 (by decide)⟩,
   ⟨by decide, (gap_validator_scenarios 0 3 1).2.1 (by decide)⟩,
   by decide, by decide, (gap_validator_scenarios 0 3 1).2.2 (by decide) (by decide)⟩

/-- C5: the Gap Validator's failure outcomes are exactly the empty input
(`EmptySequenceError`) and an unparseable timestamp (`FormatError`); on every
other input — in particular when duplicates or missing timestamps are found —
it returns a normal gap report and never fails. -/
theorem gap_validator_error_cases (ks : List RawTime) :
    (validate_klines ks = .error .emptySequence ↔ ks = [])
    ∧ (validate_klines ks = .error .formatError ↔ ks ≠ [] ∧ none ∈ ks)
    ∧ (ks ≠ [] → ¬ none ∈ ks →
        ∃ d m, validate_klines ks = .report (d.isEmpty && m.isEmpty) d m) := by
  refine ⟨?_, ?_, ?_⟩
  · cases ks with
    | nil => simp [validate_klines]
    | cons a ks' =>
      simp only [List.cons_ne_nil, iff_false, ne_eq]
      rcases h : parseAll (a :: ks') with _ | l
      · simp [validate_klines, h]
      · cases l <;> simp [validate_klines, h]
  · cases ks with
    | nil => simp [validate_klines]
    | cons a ks' =>
      rcases h : parseAll (a :: ks') with _ | l
      · have hm := (parseAll_eq_none (a :: ks')).1 h
        simp [validate_klines, h, hm]
      · have hne : ¬ none ∈ (a :: ks') := by
          intro hm
          rw [← parseAll_eq_none, h] at hm
          cases hm
        cases l <;> simp [validate_klines, h, hne]
  · intro h1 h2
    cases ks with
    | nil => exact absurd rfl h1
    | cons a ks' =>
      rcases h : parseAll (a :: ks') with _ | l
      · exact absurd ((parseAll_eq_none _).1 h) h2
      · cases l with
        | nil => exact ⟨[], [], by simp [validate_klines, h]⟩
        | cons t ts =>
          exact ⟨(gapScan t ts).1, (gapScan t ts).2, by simp [validate_klines, h]⟩

theorem gap_validator_error_cases_witness :
    ([some 0, some 0] : List RawTime) ≠ []
    ∧ ¬ none ∈ ([some 0, some 0] : List RawTime)
    ∧ ∃ d m, validate_klines [some 0, some 0] =
        .report (d.isEmpty && m.isEmpty) d m :=
  ⟨by decide, by decide,
   (gap_validator_error_cases [some 0, some 0]).2.2 (by decide) (by decide)⟩

/-- C8: when every adjacent delta is strictly between zero and one interval,
the scan records neither duplicates nor missing timestamps (the synthesized
range is empty because the floor-divided negative delta truncates to an empty
`range`), and the sequence is reported valid. -/
theorem subhour_deltas_valid (t0 : Int) (ts : List Int)
    (h : List.Chain' (fun a b => a < b ∧ b < a + hour) (t0 :: ts)) :
    validate_klines ((t0 :: ts).map some) = .report true [] [] := by
  rw [validate_klines_cons, gapScan_subhour t0 ts h]
  rfl

theorem subhour_deltas_valid_witness :
    List.Chain' (fun a b => a < b ∧ b < a + hour) [0, 1800, 3600]
    ∧ validate_klines (([0, 1800, 3600] : List Int).map some) =
        .report true [] [] :=
  ⟨by norm_num [List.chain'_cons, hour],
   subhour_deltas_valid 0 [1800, 3600] (by norm_num [List.chain'_cons, hour])⟩

/-! ## Segmenter (`split_and_calc_index.py`, `process_crypto_data`) -/

/-- One bar (kline) as handled by `process_crypto_data`: parsed timestamps
and price/volume cells, where a cell may be pandas `NaN` (`none`). -/
structure Kline where
  open_time : Int
  close_time : Int
  open_price : Option ℚ
  high_price : Option ℚ
  low_price : Option ℚ
  close_price : Option ℚ
  volume : Option ℚ
deriving DecidableEq, Inhabited

/-- Failure outcome of segmentation: `current_segment = [df.iloc[0]]` raises
on an empty frame — nothing to process (the spec's `EmptySequenceError`). -/
inductive SegError where
  | emptySequence
deriving DecidableEq

/-- The adjacency test of the segmentation loop:
`current_time - previous_time == timedelta(hours=1)`. -/
def hourStep (a b : Kline) : Prop := b.open_time - a.open_time = hour

instance (a b : Kline) : Decidable (hourStep a b) :=
  inferInstanceAs (Decidable (b.open_time - a.open_time = hour))

/-- The segmentation loop of `process_crypto_data`: `prev` is `df.iloc[i-1]`,
`cur` the `current_segment` accumulated so far; a one-hour step extends the
current run, anything else closes it and starts a new one with the current
bar; the final run is always closed. -/
def segLoop (prev : Kline) (cur : List Kline) : List Kline → List (List Kline)
  | [] => [cur]
  | b :: bs =>
    if b.open_time - prev.open_time = hour then
      segLoop b (cur ++ [b]) bs
    else
      cur :: segLoop b [b] bs

/-- Segment splitting in `process_crypto_data` (after the frame is sorted by
`open_time`): fails on empty input, otherwise seeds the loop with the first
bar. -/
def segmentKlines : List Kline → Except SegError (List (List Kline))
  | [] => .error .emptySequence
  | b :: bs => .ok (segLoop b [b] bs)

theorem segLoop_cons (prev b : Kline) (cur bs : List Kline) :
    segLoop prev cur (b :: bs) =
      if b.open_time - prev.open_time = hour then segLoop b (cur ++ [b]) bs
      else cur :: segLoop b [b] bs := rfl

theorem segLoop_join (rest : List Kline) (prev : Kline) (cur : List Kline) :
    (segLoop prev cur rest).flatten = cur ++ rest := by
  induction rest generalizing prev cur with
  | nil => simp [segLoop]
  | cons b bs ih =>
    rw [segLoop_cons]
    by_cases h : b.open_time - prev.open_time = hour
    · rw [if_pos h, ih]
      simp
    · rw [if_neg h]
      simp [ih]

theorem segLoop_ne_nil (rest : List Kline) (prev : Kline) (cur : List Kline)
    (hcur : cur ≠ []) : ∀ s ∈ segLoop prev cur rest, s ≠ [] := by
  induction rest generalizing prev cur with
  | nil =>
    intro s hs
    simp only [segLoop, List.mem_singleton] at hs
    exact hs ▸ hcur
  | cons b bs ih =>
    intro s hs
    rw [segLoop_cons] at hs
    by_cases h : b.open_time - prev.open_time = hour
    · rw [if_pos h] at hs
      exact ih b (cur ++ [b]) (by simp) s hs
    · rw [if_neg h] at hs
      rcases List.mem_cons.1 hs with rfl | hs'
      · exact hcur
      · exact ih b [b] (by simp) s hs'

theorem segLoop_chain (rest : List Kline) (prev : Kline) (cur : List Kline)
    (hlast : cur.getLast? = some prev)
    (hchain : List.Chain' hourStep cur) :
    ∀ s ∈ segLoop prev cur rest, List.Chain' hourStep s := by
  induction rest generalizing prev cur with
  | nil =>
    intro s hs
    simp only [segLoop, List.mem_singleton] at hs
    exact hs ▸ hchain
  | cons b bs ih =>
    intro s hs
    rw [segLoop_cons] at hs
    by_cases h : b.open_time - prev.open_time = hour
    · rw [if_pos h] at hs
      refine ih b (cur ++ [b]) (by simp) ?_ s hs
      refine hchain.append (List.chain'_singleton b) ?_
      intro x hx y hy
      rw [hlast] at hx
      simp only [Option.mem_def, Option.some.injEq, List.head?_cons] at hx hy
      subst hx
      subst hy
      exact h
    · rw [if_neg h] at hs
      rcases List.mem_cons.1 hs with rfl | hs'
      · exact hchain
      · exact ih b [b] (by simp) (List.chain'_singleton b) s hs'

/-- When the whole input is one contiguous hourly run, the loop returns it as
a single segment. -/
theorem segLoop_of_chain (rest : List Kline) (prev : Kline) (cur : List Kline)
    (hchain : List.Chain' hourStep (prev :: rest)) :
    segLoop prev cur rest = [cur ++ rest] := by
  induction rest generalizing prev cur with
  | nil => simp [segLoop]
  | cons b bs ih =>
    rw [List.chain'_cons] at hchain
    have h1 : b.open_time - prev.open_time = hour := hchain.1
    rw [segLoop_cons, if_pos h1, ih b (cur ++ [b]) hchain.2]
    simp

/-! Concrete segments for witnesses: a perfect hourly run of bars with
constant unit prices. -/

def mkKline (i : Nat) : Kline where
  open_time := hour * (i : Int)
  close_time := hour * (i : Int) + 3599
  open_price := some 1
  high_price := some 1
  low_price := some 1
  close_price := some 1
  volume := some 1

def mkSeg (n : Nat) : List Kline := (List.range n).map mkKline

theorem mkSeg_chain (n : Nat) : List.Chain' hourStep (mkSeg n) := by
  cases n with
  | zero => simp [mkSeg]
  | succ m =>
    rw [mkSeg, List.chain'_map, List.chain'_range_succ]
    intro i _
    show hour * ((i : Int) + 1) - hour * (i : Int) = hour
    ring

/-- C1: the Segmenter over a non-empty sorted Sequence yields segments that
partition the input: every segment is non-empty and their in-order
concatenation reproduces the input bar-for-bar — hence the segments are
pairwise disjoint, cover every input bar exactly once, and preserve the
input order. -/
theorem segmenter_partition (ks : List Kline)
    (hne : ks ≠ [])
    (hsorted : List.Chain' (fun a b => a.open_time ≤ b.open_time) ks) :
    ∃ segs, segmentKlines ks = .ok segs ∧ segs.flatten = ks
      ∧ ∀ s ∈ segs, s ≠ [] := by
  cases ks with
  | nil => exact absurd rfl hne
  | cons b bs =>
    refine ⟨segLoop b [b] bs, rfl, ?_, segLoop_ne_nil bs b [b] (by simp)⟩
    simpa using segLoop_join bs b [b]

theorem segmenter_partition_witness :
    (mkSeg 3 ≠ [] ∧ List.Chain' (fun a b => a.open_time ≤ b.open_time) (mkSeg 3))
    ∧ ∃ segs, segmentKlines (mkSeg 3) = .ok segs ∧ segs.flatten = mkSeg 3
        ∧ ∀ s ∈ segs, s ≠ [] := by
  have h1 : mkSeg 3 ≠ [] := by decide
  have h2 : List.Chain' (fun a b => a.open_time ≤ b.open_time) (mkSeg 3) := by
    refine List.Chain'.imp ?_ (mkSeg_chain 3)
    intro a b hab
    have hab' : b.open_time - a.open_time = hour := hab
    simp only [hour] at hab'
    omega
  exact ⟨⟨h1, h2⟩, segmenter_partition (mkSeg 3) h1 h2⟩

/-- C7: segmentation of an empty Sequence fails (nothing to process — the
spec's `EmptySequenceError`; in the Python source `df.iloc[0]` raises on the
empty frame), and a one-bar Sequence yields exactly one one-bar segment. -/
theorem segmenter_empty_and_singleton :
    segmentKlines ([] : List Kline) = .error .emptySequence
    ∧ ∀ b : Kline, segmentKlines [b] = .ok [[b]] :=
  ⟨rfl, fun _ => rfl⟩

instance : IsTrans Kline (fun a b => a.open_time < b.open_time) :=
  ⟨fun _ _ _ h1 h2 => lt_trans h1 h2⟩

/-- C9: every segment the Segmenter produces is hourly-chained — adjacent
bars' open times differ by exactly one interval — hence open times are
strictly increasing inside a segment, so two bars sharing an open time
(zero delta closes the run and reseeds with the duplicate) always land in
different segments; and the concatenation reproduces the input, so neither
duplicate is dropped. -/
theorem segments_hourly_chained (ks : List Kline) (hne : ks ≠ []) :
    ∃ segs, segmentKlines ks = .ok segs
      ∧ (∀ s ∈ segs, List.Chain' hourStep s)
      ∧ (∀ s ∈ segs, List.Pairwise (fun a b => a.open_time < b.open_time) s)
      ∧ segs.flatten = ks := by
  cases ks with
  | nil => exact absurd rfl hne
  | cons b bs =>
    have hchain := segLoop_chain bs b [b] (by simp) (List.chain'_singleton b)
    refine ⟨segLoop b [b] bs, rfl, hchain, ?_, by simpa using segLoop_join bs b [b]⟩
    intro s hs
    have hlt : List.Chain' (fun a b => a.open_time < b.open_time) s := by
      refine List.Chain'.imp ?_ (hchain s hs)
      intro x y hxy
      have hxy' : y.open_time - x.open_time = hour := hxy
      simp only [hour] at hxy'
      omega
    exact List.chain'_iff_pairwise.mp hlt

theorem segments_hourly_chained_witness :
    ([mkKline 0, mkKline 0] : List Kline) ≠ []
    ∧ ∃ segs, segmentKlines [mkKline 0, mkKline 0] = .ok segs
        ∧ (∀ s ∈ segs, List.Chain' hourStep s)
        ∧ (∀ s ∈ segs, List.Pairwise (fun a b => a.open_time < b.open_time) s)
        ∧ segs.flatten = [mkKline 0, mkKline 0] :=
  ⟨by decide, segments_hourly_chained [mkKline 0, mkKline 0] (by decide)⟩

/-! ## Missing-value fill (`seg.fillna(method='ffill')` then
`seg.fillna(method='bfill')`) -/

/-- `fillna` on one cell: keep a present value, otherwise substitute the
carried fill value. -/
def fillCell (x carry : Option ℚ) : Option ℚ :=
  match x with
  | some v => some v
  | none => carry

/-- Forward-fill carry state: the last non-null value seen so far in each of
the five value columns. -/
structure FillCarry where
  o : Option ℚ
  hi : Option ℚ
  lo : Option ℚ
  c : Option ℚ
  v : Option ℚ
deriving DecidableEq

def noCarry : FillCarry := ⟨none, none, none, none, none⟩

/-- Columnwise forward fill over the five value columns (timestamps are
always present and untouched). -/
def ffillK (carry : FillCarry) : List Kline → List Kline
  | [] => []
  | k :: ks =>
    let k' : Kline :=
      { k with
        open_price := fillCell k.open_price carry.o
        high_price := fillCell k.high_price carry.hi
        low_price := fillCell k.low_price carry.lo
        close_price := fillCell k.close_price carry.c
        volume := fillCell k.volume carry.v }
    k' :: ffillK ⟨k'.open_price, k'.high_price, k'.low_price,
                  k'.close_price, k'.volume⟩ ks

/-- Backward fill = forward fill of the reversed frame. -/
def bfillK (ks : List Kline) : List Kline :=
  (ffillK noCarry ks.reverse).reverse

/-- `seg.isnull().values.any()` restricted to one row: any of the five value
cells is `NaN`. -/
def hasNull (k : Kline) : Bool :=
  k.open_price.isNone || k.high_price.isNone || k.low_price.isNone ||
    k.close_price.isNone || k.volume.isNone

/-- The fill step of `process_crypto_data`: only performed when the segment
contains any missing value, in the order forward then backward. -/
def fillSegment (seg : List Kline) : List Kline :=
  if seg.any hasNull then bfillK (ffillK noCarry seg) else seg

/-- Single-column forward fill (pandas `ffill` on one Series). -/
def ffillCol (carry : Option ℚ) : List (Option ℚ) → List (Option ℚ)
  | [] => []
  | x :: xs => fillCell x carry :: ffillCol (fillCell x carry) xs

/-- Single-column backward fill. -/
def bfillCol (xs : List (Option ℚ)) : List (Option ℚ) :=
  (ffillCol none xs.reverse).reverse

/-! ## Indicator Engine rows and per-segment artifact -/

/-- pandas `rolling(window=w).mean()` over the close column at row `i`: with
the default `min_periods = w` it is defined only when the window is full and
contains no `NaN`. -/
def maAt (w : Nat) (closes : List (Option ℚ)) (i : Nat) : Option ℚ :=
  if w ≤ i + 1 then
    let window := (closes.drop (i + 1 - w)).take w
    if window.all Option.isSome then
      some (window.reduceOption.sum / (w : ℚ))
    else none
  else none

/-- One output row: the bar plus the in-repo moving-average columns (`MA7`,
`MA25`, `MA50`, `MA99` over `close_price`).  The remaining indicator columns
of `process_crypto_data` come from the external `ta` library, whose code is
not part of this repository. -/
structure IndicatorRow where
  bar : Kline
  ma7 : Option ℚ
  ma25 : Option ℚ
  ma50 : Option ℚ
  ma99 : Option ℚ
deriving DecidableEq

def mkRow (closes : List (Option ℚ)) (i : Nat) (b : Kline) : IndicatorRow :=
  ⟨b, maAt 7 closes i, maAt 25 closes i, maAt 50 closes i, maAt 99 closes i⟩

def buildRowsAux (closes : List (Option ℚ)) : Nat → List Kline → List IndicatorRow
  | _, [] => []
  | i, b :: bs => mkRow closes i b :: buildRowsAux closes (i + 1) bs

/-- Indicator computation over a (filled) segment, aligned columnwise. -/
def buildRows (seg : List Kline) : List IndicatorRow :=
  buildRowsAux (seg.map (fun k => k.close_price)) 0 seg

/-- The per-segment export artifact (`segment_id`, `start_time`, `end_time`,
`records`). -/
structure SegArtifact where
  segment_id : Nat
  start_time : Int
  end_time : Int
  records : List IndicatorRow
deriving DecidableEq

/-- Outcome of processing one segment in `process_crypto_data`:
  * `discarded` — the `else` branch of `len(segment) >= 99` (warning logged);
  * `failed` — `seg['open_time'].iloc[0]` raises `IndexError` because the
    trimmed frame is empty;
  * `processed art` — the artifact appended to the combined output. -/
inductive SegOutcome where
  | discarded
  | failed
  | processed (art : SegArtifact)
deriving DecidableEq

/-- Per-segment processing in `process_crypto_data`: a segment of fewer than
99 bars is discarded with a warning; otherwise missing values are filled
(forward then backward) if present, indicators are computed, the first 99
rows are dropped (`seg.iloc[99:]`), and the artifact takes `start_time` from
the first remaining row's `open_time` and `end_time` from the last remaining
row's `close_time`; on an exactly-99-bar segment the trimmed frame is empty
and reading `iloc[0]` fails. -/
def processSegment (idx : Nat) (seg : List Kline) : SegOutcome :=
  if 99 ≤ seg.length then
    match ((buildRows (fillSegment seg)).drop 99).head?,
        ((buildRows (fillSegment seg)).drop 99).getLast? with
    | some f, some l =>
      .processed ⟨idx + 1, f.bar.open_time, l.bar.close_time,
                  (buildRows (fillSegment seg)).drop 99⟩
    | _, _ => .failed
  else .discarded

/-! ### Structural lemmas for fill and row building -/

theorem ffillK_length (c : FillCarry) (ks : List Kline) :
    (ffillK c ks).length = ks.length := by
  induction ks generalizing c with
  | nil => rfl
  | cons k ks ih => simp only [ffillK, List.length_cons, ih]

theorem bfillK_length (ks : List Kline) : (bfillK ks).length = ks.length := by
  simp [bfillK, ffillK_length]

theorem fillSegment_length (seg : List Kline) :
    (fillSegment seg).length = seg.length := by
  unfold fillSegment
  split
  · simp [bfillK_length, ffillK_length]
  · rfl

theorem ffillK_open_times (c : FillCarry) (ks : List Kline) :
    (ffillK c ks).map (fun k => k.open_time) = ks.map (fun k => k.open_time) := by
  induction ks generalizing c with
  | nil => rfl
  | cons k ks ih =>
    simp only [ffillK, List.map_cons]
    exact congrArg₂ List.cons rfl (ih _)

theorem ffillK_close_times (c : FillCarry) (ks : List Kline) :
    (ffillK c ks).map (fun k => k.close_time) = ks.map (fun k => k.close_time) := by
  induction ks generalizing c with
  | nil => rfl
  | cons k ks ih =>
    simp only [ffillK, List.map_cons]
    exact congrArg₂ List.cons rfl (ih _)

theorem bfillK_open_times (ks : List Kline) :
    (bfillK ks).map (fun k => k.open_time) = ks.map (fun k => k.open_time) := by
  rw [bfillK, List.map_reverse, ffillK_open_times, List.map_reverse,
    List.reverse_reverse]

theorem bfillK_close_times (ks : List Kline) :
    (bfillK ks).map (fun k => k.close_time) = ks.map (fun k => k.close_time) := by
  rw [bfillK, List.map_reverse, ffillK_close_times, List.map_reverse,
    List.reverse_reverse]

theorem fillSegment_open_times (seg : List Kline) :
    (fillSegment seg).map (fun k => k.open_time) =
      seg.map (fun k => k.open_time) := by
  unfold fillSegment
  split
  · rw [bfillK_open_times, ffillK_open_times]
  · rfl

theorem fillSegment_close_times (seg : List Kline) :
    (fillSegment seg).map (fun k => k.close_time) =
      seg.map (fun k => k.close_time) := by
  unfold fillSegment
  split
  · rw [bfillK_close_times, ffillK_close_times]
  · rfl

theorem buildRowsAux_length (cl : List (Option ℚ)) (i : Nat) (ks : List Kline) :
    (buildRowsAux cl i ks).length = ks.length := by
  induction ks generalizing i with
  | nil => rfl
  | cons b bs ih => simp only [buildRowsAux, List.length_cons, ih]

theorem buildRows_length (seg : List Kline) :
    (buildRows seg).length = seg.length := buildRowsAux_length _ 0 seg

theorem buildRowsAux_getElem? (cl : List (Option ℚ)) (i j : Nat) (ks : List Kline) :
    (buildRowsAux cl i ks)[j]? = (ks[j]?).map (mkRow cl (i + j)) := by
  induction ks generalizing i j with
  | nil => simp [buildRowsAux]
  | cons b bs ih =>
    cases j with
    | zero => simp [buildRowsAux]
    | succ j' =>
      simp only [buildRowsAux, List.getElem?_cons_succ]
      rw [show i + (j' + 1) = (i + 1) + j' from by omega]
      exact ih (i + 1) j'

theorem buildRows_getElem? (seg : List Kline) (j : Nat) :
    (buildRows seg)[j]? =
      (seg[j]?).map (mkRow (seg.map (fun k => k.close_price)) j) := by
  simpa using buildRowsAux_getElem? (seg.map (fun k => k.close_price)) 0 j seg

theorem getLast?_drop_of_lt {α : Type} (l : List α) (n : Nat) (h : n < l.length) :
    (l.drop n).getLast? = l.getLast? := by
  rw [List.getLast?_eq_getElem?, List.getLast?_eq_getElem?, List.length_drop,
    List.getElem?_drop]
  congr 1
  omega

/-! ### Characterization of per-segment processing -/

theorem processSegment_short (idx : Nat) (seg : List Kline)
    (h : seg.length < 99) : processSegment idx seg = .discarded := by
  unfold processSegment
  rw [if_neg (by omega)]

theorem processSegment_99_failed (idx : Nat) (seg : List Kline)
    (h : seg.length = 99) : processSegment idx seg = .failed := by
  unfold processSegment
  rw [if_pos (by omega)]
  have hnil : (buildRows (fillSegment seg)).drop 99 = [] := by
    have : (buildRows (fillSegment seg)).length ≤ 99 := by
      rw [buildRows_length, fillSegment_length, h]
    exact List.drop_eq_nil_of_le this
  rw [hnil]
  rfl

theorem processSegment_eq (idx : Nat) (seg : List Kline) (h : 100 ≤ seg.length) :
    ∃ b99 blast, seg[99]? = some b99 ∧ seg.getLast? = some blast ∧
      processSegment idx seg =
        .processed ⟨idx + 1, b99.open_time, blast.close_time,
                    (buildRows (fillSegment seg)).drop 99⟩ := by
  have hrows : (buildRows (fillSegment seg)).length = seg.length := by
    rw [buildRows_length, fillSegment_length]
  obtain ⟨b99, hb99⟩ : ∃ b, seg[99]? = some b := by
    rw [List.getElem?_eq_getElem (by omega)]
    exact ⟨_, rfl⟩
  obtain ⟨blast, hblast⟩ : ∃ b, seg.getLast? = some b := by
    rw [List.getLast?_eq_getElem?, List.getElem?_eq_getElem (by omega)]
    exact ⟨_, rfl⟩
  obtain ⟨c99, hc99, hc99o⟩ : ∃ c, (fillSegment seg)[99]? = some c
      ∧ c.open_time = b99.open_time := by
    have hmap : ((fillSegment seg).map (fun k => k.open_time))[99]? =
        some b99.open_time := by
      rw [fillSegment_open_times, List.getElem?_map, hb99]
      rfl
    rw [List.getElem?_map] at hmap
    rcases hx : (fillSegment seg)[99]? with _ | c
    · rw [hx] at hmap
      cases hmap
    · rw [hx] at hmap
      exact ⟨c, rfl, by injection hmap⟩
  obtain ⟨clast, hclast, hclastc⟩ : ∃ c,
      (fillSegment seg)[seg.length - 1]? = some c
      ∧ c.close_time = blast.close_time := by
    have hmap : ((fillSegment seg).map (fun k => k.close_time))[seg.length - 1]? =
        some blast.close_time := by
      rw [fillSegment_close_times, List.getElem?_map]
      rw [List.getLast?_eq_getElem?] at hblast
      rw [hblast]
      rfl
    rw [List.getElem?_map] at hmap
    rcases hx : (fillSegment seg)[seg.length - 1]? with _ | c
    · rw [hx] at hmap
      cases hmap
    · rw [hx] at hmap
      exact ⟨c, rfl, by injection hmap⟩
  refine ⟨b99, blast, hb99, hblast, ?_⟩
  unfold processSegment
  rw [if_pos (by omega)]
  have hhead : ((buildRows (fillSegment seg)).drop 99).head? =
      some (mkRow ((fillSegment seg).map (fun k => k.close_price)) 99 c99) := by
    rw [List.head?_eq_getElem?, List.getElem?_drop, Nat.add_zero,
      buildRows_getElem?, hc99]
    rfl
  have hlast : ((buildRows (fillSegment seg)).drop 99).getLast? =
      some (mkRow ((fillSegment seg).map (fun k => k.close_price))
        (seg.length - 1) clast) := by
    rw [getLast?_drop_of_lt _ _ (by rw [hrows]; omega),
      List.getLast?_eq_getElem?, hrows, buildRows_getElem?, hclast]
    rfl
  rw [hhead, hlast]
  simp only [mkRow]
  rw [hc99o, hclastc]

/-- If the whole (non-empty) input is one contiguous hourly run, segmentation
returns it as the single segment. -/
theorem segmentKlines_of_chain (ks : List Kline) (hne : ks ≠ [])
    (hchain : List.Chain' hourStep ks) : segmentKlines ks = .ok [ks] := by
  cases ks with
  | nil => exact absurd rfl hne
  | cons b bs =>
    show Except.ok (segLoop b [b] bs) = Except.ok [b :: bs]
    rw [segLoop_of_chain bs b [b] hchain]
    rfl

theorem segmentKlines_chained (ks : List Kline) (segs : List (List Kline))
    (hsegs : segmentKlines ks = .ok segs) :
    ∀ s ∈ segs, List.Chain' hourStep s := by
  cases ks with
  | nil => cases hsegs
  | cons b bs =>
    have heq : segLoop b [b] bs = segs := by
      have := hsegs
      simp only [segmentKlines, Except.ok.injEq] at this
      exact this
    rw [← heq]
    exact segLoop_chain bs b [b] (by simp) (List.chain'_singleton b)

theorem chain_getElem_open (b0 : Kline) (s : List Kline)
    (hch : List.Chain' hourStep (b0 :: s)) (i : Nat) (bi : Kline)
    (hi : (b0 :: s)[i]? = some bi) :
    bi.open_time = b0.open_time + hour * i := by
  induction i generalizing b0 s with
  | zero =>
    simp only [List.getElem?_cons_zero, Option.some.injEq] at hi
    subst hi
    simp
  | succ j ih =>
    rw [List.getElem?_cons_succ] at hi
    cases s with
    | nil => simp at hi
    | cons b1 s' =>
      rw [List.chain'_cons] at hch
      have hrec := ih b1 s' hch.2 hi
      have hstep : b1.open_time - b0.open_time = hour := hch.1
      have hexp : hour * ((j : Int) + 1) = hour * j + hour := by ring
      push_cast
      rw [hexp]
      push_cast at hrec
      linarith [hstep, hrec]

theorem mkSeg_length (n : Nat) : (mkSeg n).length = n := by
  simp [mkSeg]

/-! ### Columnwise view of the fill -/

theorem ffillK_close_col (c : FillCarry) (ks : List Kline) :
    (ffillK c ks).map (fun k => k.close_price) =
      ffillCol c.c (ks.map (fun k => k.close_price)) := by
  induction ks generalizing c with
  | nil => rfl
  | cons k ks ih =>
    simp only [ffillK, ffillCol, List.map_cons]
    exact congrArg₂ List.cons rfl (ih _)

theorem bfillK_close_col (ks : List Kline) :
    (bfillK ks).map (fun k => k.close_price) =
      bfillCol (ks.map (fun k => k.close_price)) := by
  rw [bfillK, bfillCol, List.map_reverse, ffillK_close_col, List.map_reverse]
  rfl

theorem fillSegment_close_col (seg : List Kline) :
    (fillSegment seg).map (fun k => k.close_price) =
      (if seg.any hasNull then
        bfillCol (ffillCol none (seg.map (fun k => k.close_price)))
       else seg.map (fun k => k.close_price)) := by
  unfold fillSegment
  split
  · rw [bfillK_close_col, ffillK_close_col]
    rfl
  · rfl

/-- Once the forward-fill carry holds a value, no `NaN` can remain. -/
theorem ffillCol_some_carry (v : ℚ) (xs : List (Option ℚ)) :
    ¬ none ∈ ffillCol (some v) xs := by
  induction xs generalizing v with
  | nil => simp [ffillCol]
  | cons x xs ih =>
    cases x with
    | none =>
      simp only [ffillCol, fillCell, List.mem_cons]
      rintro (hc | hc)
      · cases hc
      · exact ih v hc
    | some w =>
      simp only [ffillCol, fillCell, List.mem_cons]
      rintro (hc | hc)
      · cases hc
      · exact ih w hc

theorem getLast?_mem {α : Type} (l : List α) (hne : l ≠ []) :
    ∃ y, l.getLast? = some y ∧ y ∈ l :=
  ⟨l.getLast hne, List.getLast?_eq_getLast l hne, List.getLast_mem hne⟩

/-- If the column has any value at all, the forward-filled column ends in a
value. -/
theorem ffillCol_getLast (c : Option ℚ) (xs : List (Option ℚ))
    (hx : ∃ v, some v ∈ xs) :
    ∃ w, (ffillCol c xs).getLast? = some (some w) := by
  induction xs generalizing c with
  | nil =>
    obtain ⟨v, hv⟩ := hx
    cases hv
  | cons x xs ih =>
    by_cases hxs : ∃ v, some v ∈ xs
    · obtain ⟨w, hw⟩ := ih (fillCell x c) hxs
      refine ⟨w, ?_⟩
      show ((fillCell x c :: ffillCol (fillCell x c) xs).getLast?) = _
      rcases hcol : ffillCol (fillCell x c) xs with _ | ⟨a, as⟩
      · rw [hcol] at hw
        cases hw
      · rw [hcol] at hw
        rw [List.getLast?_cons_cons]
        exact hw
    · obtain ⟨v, hv⟩ := hx
      have hxv : x = some v := by
        rcases List.mem_cons.1 hv with h | h
        · exact h.symm
        · exact absurd ⟨v, h⟩ hxs
      subst hxv
      cases xs with
      | nil => exact ⟨v, rfl⟩
      | cons z zs =>
        have hcar : fillCell (some v) c = some v := rfl
        have hne : ffillCol (some v) (z :: zs) ≠ [] := by
          cases z <;> simp [ffillCol, fillCell]
        obtain ⟨y, hy, hymem⟩ := getLast?_mem _ hne
        have hyne : y ≠ none := fun hyn =>
          ffillCol_some_carry v (z :: zs) (hyn ▸ hymem)
        obtain ⟨w, rfl⟩ : ∃ w, y = some w := by
          cases y with
          | none => exact absurd rfl hyne
          | some w => exact ⟨w, rfl⟩
        refine ⟨w, ?_⟩
        show ((fillCell (some v) c :: ffillCol (fillCell (some v) c) (z :: zs)).getLast?) = _
        rw [hcar]
        rcases hcol : ffillCol (some v) (z :: zs) with _ | ⟨a, as⟩
        · exact absurd hcol hne
        · rw [hcol] at hy
          rw [List.getLast?_cons_cons]
          exact hy

/-- Backward fill removes every `NaN` from a column whose forward fill ends
in a value. -/
theorem bfillCol_no_none (ys : List (Option ℚ)) (w : ℚ)
    (hlast : ys.getLast? = some (some w)) : ¬ none ∈ bfillCol ys := by
  intro hmem
  rw [bfillCol, List.mem_reverse] at hmem
  have hrev : ys.reverse.head? = some (some w) := by
    rw [List.head?_reverse]
    exact hlast
  rcases hys : ys.reverse with _ | ⟨a, as⟩
  · rw [hys] at hmem
    cases hmem
  · rw [hys] at hrev hmem
    simp only [List.head?_cons, Option.some.injEq] at hrev
    subst hrev
    simp only [ffillCol, fillCell, List.mem_cons] at hmem
    rcases hmem with hc | hc
    · cases hc
    · exact ffillCol_some_carry w as hc

/-- A column that contains at least one value has no `NaN` left after the
forward-then-backward fill. -/
theorem fill_no_gap (xs : List (Option ℚ)) (hx : ∃ v, some v ∈ xs) :
    ¬ none ∈ bfillCol (ffillCol none xs) := by
  obtain ⟨w, hw⟩ := ffillCol_getLast none xs hx
  exact bfillCol_no_none _ w hw

/-- C2 (threshold bug): the code accepts segments with `len(segment) >= 99`,
not `>= minWarmup + 1 = 100` as specified: a 98-bar segment is discarded with
a warning, but a 99-bar segment — which the claim says is rejected the same
way — is accepted, fully trimmed by `seg.iloc[99:]`, and the artifact
construction then fails on `seg['open_time'].iloc[0]` (IndexError on the
empty frame); 150 contiguous hourly bars do yield one segment and exactly
51 rows. -/
theorem engine_warmup_threshold :
    processSegment 0 (mkSeg 98) = .discarded
    ∧ processSegment 0 (mkSeg 99) = .failed
    ∧ segmentKlines (mkSeg 150) = .ok [mkSeg 150]
    ∧ ∃ art, processSegment 0 (mkSeg 150) = .processed art
        ∧ art.records.length = 51 := by
  refine ⟨?_, ?_, ?_, ?_⟩
  · exact processSegment_short 0 (mkSeg 98) (by rw [mkSeg_length]; omega)
  · exact processSegment_99_failed 0 (mkSeg 99) (mkSeg_length 99)
  · refine segmentKlines_of_chain (mkSeg 150) ?_ (mkSeg_chain 150)
    exact List.length_pos.mp (by rw [mkSeg_length]; omega)
  · obtain ⟨b99, blast, _, _, heq⟩ :=
      processSegment_eq 0 (mkSeg 150) (by rw [mkSeg_length]; omega)
    refine ⟨_, heq, ?_⟩
    simp [List.length_drop, buildRows_length, fillSegment_length, mkSeg_length]

/-- A 100-bar hourly segment whose close column is entirely missing. -/
def gapSeg : List Kline :=
  (List.range 100).map (fun i => { mkKline i with close_price := none })

/-- C6 counterexample: a 100-bar accepted segment whose close column is
entirely missing still has `NaN` cells after the forward and the backward
fill, yet `process_crypto_data` processes and exports it — the code has no
`InsufficientDataError` rejection for gaps that survive both passes. -/
theorem unfillable_segment_still_processed :
    gapSeg.any hasNull = true
    ∧ (fillSegment gapSeg).any hasNull = true
    ∧ ∃ art, processSegment 0 gapSeg = .processed art := by
  refine ⟨by decide, by decide, ?_⟩
  obtain ⟨b99, blast, _, _, heq⟩ := processSegment_eq 0 gapSeg (by decide)
  exact ⟨_, heq⟩

/-- C6 (amended): missing values in an accepted segment are filled forward
then backward, columnwise, before indicator computation; after both passes a
cell can remain missing only when its whole column is missing (a column with
at least one value fills completely); and regardless of any remaining gaps a
segment of length ≥ 100 is processed and exported — no rejection occurs. -/
theorem fill_then_process (idx : Nat) (seg : List Kline) (xs : List (Option ℚ))
    (hlen : 100 ≤ seg.length) (hx : ∃ v, some v ∈ xs) :
    (∃ art, processSegment idx seg = .processed art
       ∧ art.records = (buildRows (fillSegment seg)).drop 99)
    ∧ (fillSegment seg).map (fun k => k.close_price) =
        (if seg.any hasNull then
          bfillCol (ffillCol none (seg.map (fun k => k.close_price)))
         else seg.map (fun k => k.close_price))
    ∧ ¬ none ∈ bfillCol (ffillCol none xs) := by
  refine ⟨?_, fillSegment_close_col seg, fill_no_gap xs hx⟩
  obtain ⟨b99, blast, _, _, heq⟩ := processSegment_eq idx seg hlen
  exact ⟨_, heq, rfl⟩

theorem fill_then_process_witness :
    (100 ≤ (mkSeg 100).length ∧ ∃ v : ℚ, some v ∈ [none, some (1 : ℚ)])
    ∧ (∃ art, processSegment 0 (mkSeg 100) = .processed art
         ∧ art.records = (buildRows (fillSegment (mkSeg 100))).drop 99)
    ∧ (fillSegment (mkSeg 100)).map (fun k => k.close_price) =
        (if (mkSeg 100).any hasNull then
          bfillCol (ffillCol none ((mkSeg 100).map (fun k => k.close_price)))
         else (mkSeg 100).map (fun k => k.close_price))
    ∧ ¬ none ∈ bfillCol (ffillCol none [none, some (1 : ℚ)]) := by
  have h1 : 100 ≤ (mkSeg 100).length := by rw [mkSeg_length]
  have h2 : ∃ v : ℚ, some v ∈ [none, some (1 : ℚ)] := ⟨1, by simp⟩
  exact ⟨⟨h1, h2⟩, fill_then_process 0 (mkSeg 100) [none, some 1] h1 h2⟩

/-- C10: in every per-segment artifact, `start_time` is the open time of the
original segment's bar at index 99 (the first bar surviving warm-up
trimming) — 99 intervals after the segment actually begins — and `end_time`
is the close time of the segment's last bar. -/
theorem artifact_times (ks : List Kline) (segs : List (List Kline))
    (idx : Nat) (seg : List Kline) (art : SegArtifact)
    (hsegs : segmentKlines ks = .ok segs) (hmem : seg ∈ segs)
    (hart : processSegment idx seg = .processed art) :
    ∃ b0 b99 blast,
      seg.head? = some b0 ∧ seg[99]? = some b99 ∧ seg.getLast? = some blast
      ∧ art.start_time = b99.open_time
      ∧ art.start_time = b0.open_time + hour * 99
      ∧ art.end_time = blast.close_time := by
  have hchain := segmentKlines_chained ks segs hsegs seg hmem
  have hlen : 100 ≤ seg.length := by
    rcases Nat.lt_or_ge seg.length 99 with hlt | hge
    · rw [processSegment_short idx seg hlt] at hart
      cases hart
    · rcases Nat.eq_or_lt_of_le hge with heq99 | hgt
      · rw [processSegment_99_failed idx seg heq99.symm] at hart
        cases hart
      · omega
  obtain ⟨b99, blast, hb99, hblast, heq⟩ := processSegment_eq idx seg hlen
  rw [heq] at hart
  injection hart with hart'
  subst hart'
  cases seg with
  | nil => simp at hlen
  | cons b0 rest =>
    have hco := chain_getElem_open b0 rest hchain 99 b99 hb99
    refine ⟨b0, b99, blast, rfl, hb99, hblast, rfl, ?_, rfl⟩
    show b99.open_time = b0.open_time + hour * 99
    rw [hco]
    norm_num

theorem artifact_times_witness :
    ∃ art, processSegment 0 (mkSeg 100) = .processed art
      ∧ ∃ b0 b99 blast,
          (mkSeg 100).head? = some b0 ∧ (mkSeg 100)[99]? = some b99
          ∧ (mkSeg 100).getLast? = some blast
          ∧ art.start_time = b99.open_time
          ∧ art.start_time = b0.open_time + hour * 99
          ∧ art.end_time = blast.close_time := by
  have hne : mkSeg 100 ≠ [] := List.length_pos.mp (by rw [mkSeg_length]; omega)
  have hsegs : segmentKlines (mkSeg 100) = .ok [mkSeg 100] :=
    segmentKlines_of_chain (mkSeg 100) hne (mkSeg_chain 100)
  obtain ⟨b99, blast, _, _, heq⟩ :=
    processSegment_eq 0 (mkSeg 100) (by rw [mkSeg_length])
  exact ⟨_, heq,
    artifact_times (mkSeg 100) [mkSeg 100] 0 (mkSeg 100) _ hsegs (by simp) heq⟩

/-! ## True Range and ATR(50) (`generate_training_dataset.py`,
`calculate_indicators`) -/

/-- One row of the training-dataset frame: the columns that enter the
True Range / ATR computation. -/
structure PriceBar where
  high_price : ℚ
  low_price : ℚ
  close_price : ℚ
deriving DecidableEq

/-- `df['previous_close'] = df['close_price'].shift(1)`: `NaN` at row 0, the
close of row `i - 1` afterwards (`zip` below truncates to the frame length). -/
def previous_close (bars : List PriceBar) : List (Option ℚ) :=
  none :: bars.map (fun b => some b.close_price)

/-- One row of `df[['tr1','tr2','tr3']].max(axis=1)` with
`tr1 = high - low`, `tr2 = |high - previous_close|`,
`tr3 = |low - previous_close|`: the pandas rowwise `max` skips `NaN`, so at
row 0 (no previous close) only `tr1` survives. -/
def trRow (p : PriceBar × Option ℚ) : ℚ :=
  match p.2 with
  | none => p.1.high_price - p.1.low_price
  | some pc =>
    max (max (p.1.high_price - p.1.low_price) |p.1.high_price - pc|)
      |p.1.low_price - pc|

/-- The `TR` column of `calculate_indicators`. -/
def true_range (bars : List PriceBar) : List ℚ :=
  (bars.zip (previous_close bars)).map trRow

/-- pandas `rolling(window=w).mean()` on a fully-populated column: defined
from row `w - 1` on, as the unweighted mean of the `w` most recent cells. -/
def rollingMean (w : Nat) (xs : List ℚ) : List (Option ℚ) :=
  (List.range xs.length).map (fun (i : Nat) =>
    if w ≤ i + 1 then some ((((xs.drop (i + 1 - w)).take w).sum) / (w : ℚ))
    else none)

/-- `df['ATR50'] = df['TR'].rolling(window=50).mean()`. -/
def ATR50 (bars : List PriceBar) : List (Option ℚ) :=
  rollingMean 50 (true_range bars)

/-- The spec's wording of True Range for every bar after the first:
`max(high−low, |high−prevClose|, |low−prevClose|)` against the previous bar's
close. -/
def trSpecAux (prev : PriceBar) : List PriceBar → List ℚ
  | [] => []
  | b :: bs =>
    max (b.high_price - b.low_price)
      (max |b.high_price - prev.close_price| |b.low_price - prev.close_price|)
      :: trSpecAux b bs

/-- The spec's wording of the True Range column: the first bar's True Range
is `high − low` alone (no previous close). -/
def true_range_spec : List PriceBar → List ℚ
  | [] => []
  | b :: rest => (b.high_price - b.low_price) :: trSpecAux b rest

theorem tr_zip_eq (prev : PriceBar) (bs : List PriceBar) :
    (bs.zip ((prev :: bs).map (fun b => some b.close_price))).map trRow
      = trSpecAux prev bs := by
  induction bs generalizing prev with
  | nil => rfl
  | cons b1 bs ih =>
    simp only [List.map_cons, List.zip_cons_cons, trSpecAux]
    refine congrArg₂ List.cons ?_ (ih b1)
    show max (max (b1.high_price - b1.low_price) _) _ = _
    rw [max_assoc]

/-- C3: the in-repo ATR(50) of `calculate_indicators` is exactly the simple
(unweighted) rolling mean over a 50-bar window of the True Range, where the
True Range per bar is `max(high−low, |high−prevClose|, |low−prevClose|)` and
the first bar's True Range is `high−low` alone. -/
theorem atr50_simple_rolling_mean (bars : List PriceBar) :
    true_range bars = true_range_spec bars
    ∧ ATR50 bars = rollingMean 50 (true_range_spec bars) := by
  have htr : true_range bars = true_range_spec bars := by
    cases bars with
    | nil => rfl
    | cons b rest =>
      simp only [true_range, previous_close, List.zip_cons_cons, List.map_cons,
        true_range_spec]
      exact congrArg₂ List.cons rfl (tr_zip_eq b rest)
  exact ⟨htr, by rw [ATR50, htr]⟩
